import Mathlib

/-
Verification of the hdomes pipeline (src/bin/source/hdomes.c).

The repository's own code is the driver `main`, which sequences
pixRead → pixInvert → pixHDome(·, h, 4) → pixWrite and maps failures to
exit code 1.  The image operations themselves (decode, invert, h-dome
reconstruction, encode) live in the external imaging library, so they are
modelled here from the specification (spec.md §3, §4.2, §4.3), each such
definition carrying a "Modelled from the spec:" doc comment.  The driver
`runMain`/`runPipeline` is translated directly from hdomes.c.
-/

namespace Hdomes

/-- Modelled from the spec: an image buffer is a 2D grid of unsigned
sample values with metadata width, height and bit depth; samples are
stored row-major, length = width × height (spec.md §3). -/
structure Img where
  width : Nat
  height : Nat
  depth : Nat
  data : List Nat
deriving DecidableEq, Repr

/-- Modelled from the spec: a valid 8-bit image buffer — depth 8,
positive dimensions, row-major sample list of length width × height,
every sample in [0, 255] (spec.md §3). -/
def Img8 (m : Img) : Prop :=
  m.depth = 8 ∧ 0 < m.width ∧ 0 < m.height ∧
  m.data.length = m.width * m.height ∧ ∀ s ∈ m.data, s ≤ 255

instance (m : Img) : Decidable (Img8 m) := by
  unfold Img8; infer_instance

/-- Sample at column x, row y (row-major access). -/
def getPix (m : Img) (x y : Nat) : Nat :=
  m.data.getD (y * m.width + x) 0

/-- Modelled from the spec: the neighbor offsets selected by the
connectivity parameter, 4-connected or 8-connected (spec.md §3). -/
def nbrOffsets (conn : Nat) : List (Int × Int) :=
  if conn = 8 then
    [(1, 0), (-1, 0), (0, 1), (0, -1), (1, 1), (1, -1), (-1, 1), (-1, -1)]
  else
    [(1, 0), (-1, 0), (0, 1), (0, -1)]

/-- In-bounds neighbor coordinates of pixel (x, y) in a w × h grid:
offsets falling outside the image are dropped (spec.md §4.3, border
neighbors outside the image are treated as absent). -/
def nbrCoords (conn w h x y : Nat) : List (Nat × Nat) :=
  (nbrOffsets conn).filterMap fun d =>
    let nx : Int := (x : Int) + d.1
    let ny : Int := (y : Int) + d.2
    if 0 ≤ nx ∧ nx < (w : Int) ∧ 0 ≤ ny ∧ ny < (h : Int) then
      some (nx.toNat, ny.toNat)
    else
      none

/-- Modelled from the spec: one dilation output sample — the max over
the pixel itself and its in-bounds connectivity neighbors
(spec.md §4.3, dilation step). -/
def dilateAt (conn : Nat) (m : Img) (x y : Nat) : Nat :=
  ((nbrCoords conn m.width m.height x y).map fun p => getPix m p.1 p.2).foldr
    max (getPix m x y)

/-- Modelled from the spec: grayscale dilation of the whole image under
the chosen connectivity (spec.md §4.3). -/
def dilate (conn : Nat) (m : Img) : Img :=
  ⟨m.width, m.height, m.depth,
    (List.range (m.width * m.height)).map fun i =>
      dilateAt conn m (i % m.width) (i / m.width)⟩

/-- Pointwise minimum of two buffers (used for min(dilate(M), I)). -/
def imgMin (a b : Img) : Img :=
  ⟨a.width, a.height, a.depth, List.zipWith min a.data b.data⟩

/-- Modelled from the spec: one reconstruction iteration,
Mₖ₊₁ = min(dilate(Mₖ, connectivity), I) (spec.md §4.3). -/
def step (conn : Nat) (mask M : Img) : Img :=
  imgMin (dilate conn M) mask

/-- Modelled from the spec: reconstruction by dilation — repeat the
step until the marker no longer changes (spec.md §4.3, convergence
test).  The fuel argument bounds the number of iterations; the
development proves the fixed point is always reached within the fuel
`rfuel` used by `pixHDome`. -/
def reconstructAux (conn : Nat) (mask : Img) : Nat → Img → Img
  | 0, M => M
  | n + 1, M =>
      let M2 := step conn mask M
      if M2 = M then M else reconstructAux conn mask n M2

/-- Iteration budget for the reconstruction: 255 × (width × height) + 1,
enough to reach the fixed point for any 8-bit image (proved below). -/
def rfuel (m : Img) : Nat :=
  255 * (m.width * m.height) + 1

/-- Modelled from the spec: one marker seed sample, I − h clamped to the
sample range [0, 255] (spec.md §4.3 "M₀ = I − h (clamped at 0)" together
with §4.3 "all arithmetic saturates at the sample range [0, 255]"). -/
def markerSample (h : Int) (s : Nat) : Nat :=
  (min 255 (max 0 ((s : Int) - h))).toNat

/-- Modelled from the spec: the marker image M₀ = I − h clamped
(spec.md §4.3). -/
def marker (m : Img) (h : Int) : Img :=
  ⟨m.width, m.height, m.depth, m.data.map (markerSample h)⟩

/-- Pointwise saturating subtraction of two buffers (Nat subtraction
clamps at 0, per the spec's numeric semantics, spec.md §4.3). -/
def imgSub (a b : Img) : Img :=
  ⟨a.width, a.height, a.depth, List.zipWith (fun x y => x - y) a.data b.data⟩

/-- Modelled from the spec: the h-dome transform — fail if the input is
not depth 8 or has a zero dimension (spec.md §4.3, failure clause),
otherwise seed the marker, reconstruct by dilation to the fixed point,
and return D = I − M∞ (spec.md §4.3). -/
def pixHDome (m : Img) (h : Int) (conn : Nat) : Option Img :=
  if m.depth = 8 ∧ 0 < m.width ∧ 0 < m.height then
    some (imgSub m (reconstructAux conn m (rfuel m) (marker m h)))
  else
    none

/-- Modelled from the spec: the point transform Invert — every sample s
becomes 255 − s; always succeeds for valid 8-bit input (spec.md §4.2). -/
def pixInvert (m : Img) : Img :=
  ⟨m.width, m.height, m.depth, m.data.map (fun s => 255 - s)⟩

/-- Digit-prefix accumulator of C's atoi: consume leading decimal digits,
stop at the first non-digit. -/
def atoiDigits : List Char → Nat → Nat
  | [], acc => acc
  | c :: cs, acc =>
      if c.isDigit then atoiDigits cs (acc * 10 + (c.toNat - 48)) else acc

/-- Modelled from the spec: the driver parses h "as a base-10 integer"
via C's atoi (spec.md §6; hdomes.c line 15): skip leading whitespace,
read an optional sign and then the longest digit prefix; a string with
no leading digits yields 0. -/
def atoi (s : String) : Int :=
  match s.data.dropWhile Char.isWhitespace with
  | '-' :: cs => -(atoiDigits cs 0 : Int)
  | '+' :: cs => (atoiDigits cs 0 : Int)
  | cs => (atoiDigits cs 0 : Int)

/-- Modelled from the spec: the external world the driver touches — what
pixRead returns for the input path, and whether pixWrite succeeds
(spec.md §4.1: the codec adapter is an external collaborator performing
all I/O). -/
structure World where
  readResult : Option Img
  writeOk : Bool
deriving DecidableEq, Repr

/-- Observable outcome of one run of main: process exit code, the image
written to the output file (none when no output file is produced), and
the diagnostic message (none on success). -/
structure RunResult where
  exitCode : Nat
  written : Option Img
  errMsg : Option String
deriving DecidableEq, Repr

/-- The pipeline part of main (hdomes.c lines 17–58): read, check depth,
invert, h-dome with connectivity 4, write; first failure aborts with
exit code 1 and the corresponding diagnostic. -/
def runPipeline (h : Int) (w : World) : RunResult :=
  match w.readResult with
  | none => ⟨1, none, some "pixRead failed for input file"⟩
  | some pixs =>
      if pixs.depth = 8 then
        match pixHDome (pixInvert pixs) h 4 with
        | none => ⟨1, none, some "pixHDome failed"⟩
        | some pixd =>
            if w.writeOk then
              ⟨0, some pixd, none⟩
            else
              ⟨1, none, some "pixWrite failed for output file"⟩
      else
        ⟨1, none, some "Input image is not 8 bpp grayscale"⟩

/-- main (hdomes.c lines 8–58): require exactly 4 arguments (program
name, filein, fileout, h), convert the third argument with atoi, then
run the pipeline. -/
def runMain (args : List String) (w : World) : RunResult :=
  if args.length = 4 then
    runPipeline (atoi (args.getD 3 "")) w
  else
    ⟨1, none, some "Syntax: hdomes filein fileout h"⟩

/-- Spec-side reading of "parsable as a base-10 integer" (claim C6): an
optional sign followed by a nonempty run of decimal digits and nothing
else. -/
def isIntString (s : String) : Bool :=
  let cs := s.data
  let body := match cs with
    | '-' :: rest => rest
    | '+' :: rest => rest
    | rest => rest
  !body.isEmpty && body.all Char.isDigit

/-- A 1×1 8-bit example image used by witnesses. -/
def egImg : Img := ⟨1, 1, 8, [5]⟩

/-- A world where decoding yields `egImg` and writing succeeds. -/
def okWorld : World := ⟨some egImg, true⟩

/-- A 1×2 8-bit image used by the monotonicity counterexample. -/
def cImg : Img := ⟨2, 1, 8, [10, 5]⟩

/-- A 24-bit (color) 1×1 image used for the depth-validation scenario. -/
def badDepthImg : Img := ⟨1, 1, 24, [7]⟩

/-- A 1×258 8-bit ramp image: one pixel of 255 followed by a plateau of
254.  Reconstruction of its marker (h = 1) needs more than 255
iterations, refuting the 255-iteration bound of claim C5. -/
def rampI : Img :=
  ⟨258, 1, 8, List.replicate 1 255 ++ List.replicate 257 254⟩

/-- Closed form of the k-th reconstruction iterate on `rampI` with
h = 1: the 254-front has advanced to position k. -/
def rampM (k : Nat) : Img :=
  ⟨258, 1, 8, List.replicate (k + 1) 254 ++ List.replicate (257 - k) 253⟩

/-! ### List and fold toolbox -/

theorem foldr_max_init_le (l : List Nat) (a : Nat) : a ≤ l.foldr max a := by
  induction l with
  | nil => exact le_refl a
  | cons v t ih => exact le_trans ih (le_max_right v (t.foldr max a))

theorem foldr_max_le (l : List Nat) (a B : Nat) (ha : a ≤ B)
    (hl : ∀ v ∈ l, v ≤ B) : l.foldr max a ≤ B := by
  induction l with
  | nil => exact ha
  | cons v t ih =>
      exact max_le (hl v (List.mem_cons_self v t))
        (ih fun x hx => hl x (List.mem_cons_of_mem v hx))

theorem foldr_max_mono {l l' : List Nat} {a a' : Nat}
    (h : List.Forall₂ (· ≤ ·) l l') (ha : a ≤ a') :
    l.foldr max a ≤ l'.foldr max a' := by
  induction h with
  | nil => exact ha
  | cons hv _ ih => exact max_le_max hv ih

theorem forall2_map_map {α β : Type} (l : List α) (f g : α → β)
    (r : β → β → Prop) (h : ∀ p ∈ l, r (f p) (g p)) :
    List.Forall₂ r (l.map f) (l.map g) := by
  induction l with
  | nil => exact List.Forall₂.nil
  | cons v t ih =>
      exact List.Forall₂.cons (h v (List.mem_cons_self v t))
        (ih fun x hx => h x (List.mem_cons_of_mem v hx))

theorem list_ext_getD {a b : List Nat} (hlen : a.length = b.length)
    (h : ∀ i, a.getD i 0 = b.getD i 0) : a = b := by
  refine List.ext_getElem hlen fun i h1 h2 => ?_
  have := h i
  rwa [List.getD_eq_getElem a 0 h1, List.getD_eq_getElem b 0 h2] at this

theorem sum_le_of_pointwise {a b : List Nat} (hlen : a.length = b.length)
    (h : ∀ i, a.getD i 0 ≤ b.getD i 0) : a.sum ≤ b.sum := by
  induction a generalizing b with
  | nil =>
      cases b with
      | nil => exact le_refl 0
      | cons y ys => simp at hlen
  | cons x xs ih =>
      cases b with
      | nil => simp at hlen
      | cons y ys =>
          simp only [List.sum_cons]
          have hx : x ≤ y := by simpa using h 0
          have hxs : xs.sum ≤ ys.sum := by
            refine ih (by simpa using hlen) fun i => ?_
            simpa [List.getD_cons_succ] using h (i + 1)
          exact Nat.add_le_add hx hxs

theorem sum_lt_of_pointwise_ne {a b : List Nat} (hlen : a.length = b.length)
    (h : ∀ i, a.getD i 0 ≤ b.getD i 0) (hne : a ≠ b) : a.sum < b.sum := by
  induction a generalizing b with
  | nil =>
      cases b with
      | nil => exact absurd rfl hne
      | cons y ys => simp at hlen
  | cons x xs ih =>
      cases b with
      | nil => simp at hlen
      | cons y ys =>
          simp only [List.sum_cons]
          have hx : x ≤ y := by simpa using h 0
          have htl : ∀ i, xs.getD i 0 ≤ ys.getD i 0 := fun i => by
            simpa [List.getD_cons_succ] using h (i + 1)
          have hlen2 : xs.length = ys.length := by simpa using hlen
          by_cases hxy : x = y
          · have hxys : xs ≠ ys := by
              intro hc; exact hne (by rw [hxy, hc])
            have := ih hlen2 htl hxys
            omega
          · have hxlt : x < y := lt_of_le_of_ne hx hxy
            have := sum_le_of_pointwise hlen2 htl
            omega

theorem sum_le_255_mul (l : List Nat) (h : ∀ v ∈ l, v ≤ 255) :
    l.sum ≤ 255 * l.length := by
  induction l with
  | nil => simp
  | cons v t ih =>
      have hv : v ≤ 255 := h v (List.mem_cons_self v t)
      have ht := ih fun x hx => h x (List.mem_cons_of_mem v hx)
      simp only [List.sum_cons, List.length_cons]
      omega

theorem getD_replicate_zero (n i : Nat) :
    (List.replicate n (0 : Nat)).getD i 0 = 0 := by
  induction n generalizing i with
  | zero => simp
  | succ m ih =>
      cases i with
      | zero => simp [List.replicate]
      | succ j => simp [List.replicate, ih j]

theorem zipWith_sub_self (l : List Nat) :
    List.zipWith (fun x y => x - y) l l = List.replicate l.length 0 := by
  induction l with
  | nil => rfl
  | cons v t ih => simp [List.replicate, ih]

theorem getD_rep_append (a b u v j : Nat) (hj : j < a + b) :
    (List.replicate a u ++ List.replicate b v).getD j 0 =
      if j < a then u else v := by
  have hlen : (List.replicate a u ++ List.replicate b v).length = a + b := by
    simp
  by_cases hja : j < a
  · rw [List.getD_eq_getElem _ 0 (by omega : j < _), if_pos hja]
    rw [List.getElem_append_left (by simpa using hja)]
    simp
  · rw [List.getD_eq_getElem _ 0 (by omega : j < _), if_neg hja]
    rw [List.getElem_append_right (by simpa using Nat.le_of_not_lt hja)]
    simp

/-! ### Basic image lemmas -/

theorem imgExt {a b : Img} (hw : a.width = b.width) (hh : a.height = b.height)
    (hd : a.depth = b.depth) (hx : a.data = b.data) : a = b := by
  cases a; cases b; simp_all

theorem getPix_getD (m : Img) (i : Nat) :
    getPix m (i % m.width) (i / m.width) = m.data.getD i 0 := by
  unfold getPix
  congr 1
  rw [Nat.mul_comm]
  exact Nat.div_add_mod i m.width

theorem marker_length (m : Img) (h : Int) :
    (marker m h).data.length = m.data.length := by
  simp [marker]

theorem getD_marker (m : Img) (h : Int) (i : Nat) (hi : i < m.data.length) :
    (marker m h).data.getD i 0 = markerSample h (m.data.getD i 0) := by
  unfold marker
  rw [List.getD_eq_getElem _ 0 (by simpa using hi),
    List.getD_eq_getElem _ 0 hi, List.getElem_map]

theorem step_shape (conn : Nat) (mask M : Img) :
    (step conn mask M).width = M.width ∧ (step conn mask M).height = M.height ∧
      (step conn mask M).depth = M.depth ∧
      (step conn mask M).data.length =
        min (M.width * M.height) mask.data.length := by
  refine ⟨rfl, rfl, rfl, ?_⟩
  simp [step, imgMin, dilate]

theorem getD_zipWith_min (a b : List Nat) (i : Nat) (hia : i < a.length)
    (hib : i < b.length) :
    (List.zipWith min a b).getD i 0 = min (a.getD i 0) (b.getD i 0) := by
  rw [List.getD_eq_getElem _ 0 (by rw [List.length_zipWith]; omega),
    List.getElem_zipWith, List.getD_eq_getElem a 0 hia,
    List.getD_eq_getElem b 0 hib]

theorem getD_step (conn : Nat) (mask M : Img)
    (hw : M.width = mask.width) (hh : M.height = mask.height)
    (hmask : mask.data.length = mask.width * mask.height)
    (i : Nat) (hi : i < mask.width * mask.height) :
    (step conn mask M).data.getD i 0 =
      min (dilateAt conn M (i % M.width) (i / M.width)) (mask.data.getD i 0) := by
  have hdlen : (dilate conn M).data.length = M.width * M.height := by
    simp [dilate]
  show (List.zipWith min (dilate conn M).data mask.data).getD i 0 = _
  rw [getD_zipWith_min _ _ i (by rw [hdlen, hw, hh]; exact hi) (by omega)]
  congr 1
  show ((List.range (M.width * M.height)).map fun j =>
      dilateAt conn M (j % M.width) (j / M.width)).getD i 0 =
    dilateAt conn M (i % M.width) (i / M.width)
  rw [List.getD_eq_getElem _ 0
      (by rw [List.length_map, List.length_range, hw, hh]; exact hi),
    List.getElem_map, List.getElem_range]

/-! ### Dilation lemmas -/

theorem self_le_dilateAt (conn : Nat) (m : Img) (x y : Nat) :
    getPix m x y ≤ dilateAt conn m x y :=
  foldr_max_init_le _ _

theorem dilateAt_le_of_forall (conn : Nat) (m : Img) (x y B : Nat)
    (hB : ∀ j, m.data.getD j 0 ≤ B) : dilateAt conn m x y ≤ B := by
  refine foldr_max_le _ _ _ (hB _) ?_
  intro v hv
  rcases List.mem_map.mp hv with ⟨p, _, hp⟩
  exact hp ▸ hB _

theorem dilateAt_mono (conn : Nat) (M N : Img) (x y : Nat)
    (hw : M.width = N.width) (hh : M.height = N.height)
    (hd : ∀ j, M.data.getD j 0 ≤ N.data.getD j 0) :
    dilateAt conn M x y ≤ dilateAt conn N x y := by
  unfold dilateAt
  rw [hw, hh]
  refine foldr_max_mono ?_ ?_
  · refine forall2_map_map _ _ _ _ fun p _ => ?_
    unfold getPix
    rw [hw]
    exact hd _
  · unfold getPix
    rw [hw]
    exact hd _

/-! ### Step lemmas (pointwise) -/

theorem step_le_mask (conn : Nat) (mask M : Img)
    (hw : M.width = mask.width) (hh : M.height = mask.height)
    (hmask : mask.data.length = mask.width * mask.height) (i : Nat) :
    (step conn mask M).data.getD i 0 ≤ mask.data.getD i 0 := by
  by_cases hi : i < mask.width * mask.height
  · rw [getD_step conn mask M hw hh hmask i hi]
    exact min_le_right _ _
  · have hlen : (step conn mask M).data.length = mask.width * mask.height := by
      rw [(step_shape conn mask M).2.2.2, hw, hh, hmask, Nat.min_self]
    rw [List.getD_eq_default _ 0 (by omega)]
    exact Nat.zero_le _

theorem le_step_self (conn : Nat) (mask M : Img)
    (hw : M.width = mask.width) (hh : M.height = mask.height)
    (hMlen : M.data.length = mask.width * mask.height)
    (hmask : mask.data.length = mask.width * mask.height)
    (hle : ∀ i, M.data.getD i 0 ≤ mask.data.getD i 0) (i : Nat) :
    M.data.getD i 0 ≤ (step conn mask M).data.getD i 0 := by
  by_cases hi : i < mask.width * mask.height
  · rw [getD_step conn mask M hw hh hmask i hi]
    refine le_min ?_ (hle i)
    calc M.data.getD i 0 = getPix M (i % M.width) (i / M.width) :=
          (getPix_getD M i).symm
      _ ≤ _ := self_le_dilateAt conn M _ _
  · rw [List.getD_eq_default _ 0 (by omega)]
    exact Nat.zero_le _

theorem step_mono (conn : Nat) (mask M N : Img)
    (hw : M.width = mask.width) (hh : M.height = mask.height)
    (hw2 : N.width = mask.width) (hh2 : N.height = mask.height)
    (hmask : mask.data.length = mask.width * mask.height)
    (hd : ∀ j, M.data.getD j 0 ≤ N.data.getD j 0) (i : Nat) :
    (step conn mask M).data.getD i 0 ≤ (step conn mask N).data.getD i 0 := by
  by_cases hi : i < mask.width * mask.height
  · rw [getD_step conn mask M hw hh hmask i hi,
      getD_step conn mask N hw2 hh2 hmask i hi]
    have hww : M.width = N.width := by rw [hw, hw2]
    have hhh : M.height = N.height := by rw [hh, hh2]
    rw [hww]
    exact min_le_min (dilateAt_mono conn M N _ _ hww hhh hd) (le_refl _)
  · have hlen : (step conn mask M).data.length = mask.width * mask.height := by
      rw [(step_shape conn mask M).2.2.2, hw, hh, hmask, Nat.min_self]
    rw [List.getD_eq_default _ 0 (by omega)]
    exact Nat.zero_le _

/-! ### Iteration lemmas -/

theorem iter_shape (conn : Nat) (mask M0 : Img)
    (hmask : mask.data.length = mask.width * mask.height)
    (h1 : M0.width = mask.width) (h2 : M0.height = mask.height)
    (h3 : M0.data.length = mask.width * mask.height) (k : Nat) :
    ((step conn mask)^[k] M0).width = mask.width ∧
      ((step conn mask)^[k] M0).height = mask.height ∧
      ((step conn mask)^[k] M0).data.length = mask.width * mask.height := by
  induction k with
  | zero => exact ⟨h1, h2, h3⟩
  | succ n ih =>
      rw [Function.iterate_succ_apply']
      obtain ⟨ihw, ihh, ihl⟩ := ih
      obtain ⟨sw, sh, _, sl⟩ := step_shape conn mask ((step conn mask)^[n] M0)
      refine ⟨by rw [sw, ihw], by rw [sh, ihh], ?_⟩
      rw [sl, ihw, ihh, hmask, Nat.min_self]

theorem iter_le_mask (conn : Nat) (mask M0 : Img)
    (hmask : mask.data.length = mask.width * mask.height)
    (h1 : M0.width = mask.width) (h2 : M0.height = mask.height)
    (h3 : M0.data.length = mask.width * mask.height) (k : Nat) (i : Nat) :
    ((step conn mask)^[k + 1] M0).data.getD i 0 ≤ mask.data.getD i 0 := by
  rw [Function.iterate_succ_apply']
  obtain ⟨ihw, ihh, _⟩ := iter_shape conn mask M0 hmask h1 h2 h3 k
  exact step_le_mask conn mask _ ihw ihh hmask i

theorem iter_grow (conn : Nat) (mask M0 : Img)
    (hmask : mask.data.length = mask.width * mask.height)
    (h1 : M0.width = mask.width) (h2 : M0.height = mask.height)
    (h3 : M0.data.length = mask.width * mask.height) (k : Nat) (i : Nat) :
    ((step conn mask)^[k + 1] M0).data.getD i 0 ≤
      ((step conn mask)^[k + 2] M0).data.getD i 0 := by
  have heq : (step conn mask)^[k + 2] M0 =
      step conn mask ((step conn mask)^[k + 1] M0) :=
    Function.iterate_succ_apply' (step conn mask) (k + 1) M0
  rw [heq]
  obtain ⟨ihw, ihh, ihl⟩ := iter_shape conn mask M0 hmask h1 h2 h3 (k + 1)
  exact le_step_self conn mask _ ihw ihh ihl hmask
    (iter_le_mask conn mask M0 hmask h1 h2 h3 k) i

theorem iter_mono_start (conn : Nat) (mask M0 N0 : Img)
    (hmask : mask.data.length = mask.width * mask.height)
    (h1 : M0.width = mask.width) (h2 : M0.height = mask.height)
    (h3 : M0.data.length = mask.width * mask.height)
    (g1 : N0.width = mask.width) (g2 : N0.height = mask.height)
    (g3 : N0.data.length = mask.width * mask.height)
    (hd : ∀ j, M0.data.getD j 0 ≤ N0.data.getD j 0) (k : Nat) (i : Nat) :
    ((step conn mask)^[k] M0).data.getD i 0 ≤
      ((step conn mask)^[k] N0).data.getD i 0 := by
  induction k generalizing i with
  | zero => exact hd i
  | succ n ih =>
      rw [Function.iterate_succ_apply', Function.iterate_succ_apply']
      obtain ⟨mw, mh, _⟩ := iter_shape conn mask M0 hmask h1 h2 h3 n
      obtain ⟨nw, nh, _⟩ := iter_shape conn mask N0 hmask g1 g2 g3 n
      exact step_mono conn mask _ _ mw mh nw nh hmask ih i

theorem reconstructAux_eq_iterate (conn : Nat) (mask : Img) :
    ∀ (n : Nat) (M : Img),
      reconstructAux conn mask n M = (step conn mask)^[n] M := by
  intro n
  induction n with
  | zero => intro M; rfl
  | succ m ih =>
      intro M
      by_cases hfix : step conn mask M = M
      · simp only [reconstructAux, hfix, if_pos]
        rw [Function.iterate_succ_apply, hfix, Function.iterate_fixed hfix]
      · simp only [reconstructAux, if_neg hfix]
        rw [ih (step conn mask M), Function.iterate_succ_apply]

/-! ### The fixed point is reached within the fuel -/

theorem fixed_reached (conn : Nat) (mask M0 : Img) (hI : Img8 mask)
    (h1 : M0.width = mask.width) (h2 : M0.height = mask.height)
    (h3 : M0.data.length = mask.width * mask.height) :
    step conn mask ((step conn mask)^[rfuel mask] M0) =
      (step conn mask)^[rfuel mask] M0 := by
  obtain ⟨_, _, _, hmask, hbound⟩ := hI
  set N := mask.width * mask.height with hN
  set K := rfuel mask with hK
  have hKval : K = 255 * N + 1 := rfl
  by_contra hne
  -- no iterate up to K is a fixed point
  have hnofix : ∀ j, j ≤ K → step conn mask ((step conn mask)^[j] M0) ≠
      (step conn mask)^[j] M0 := by
    intro j hj heq
    apply hne
    have hsplit : (step conn mask)^[K] M0 =
        (step conn mask)^[K - j] ((step conn mask)^[j] M0) := by
      rw [← Function.iterate_add_apply]
      congr 1
      omega
    have hfixj : (step conn mask)^[K - j] ((step conn mask)^[j] M0) =
        (step conn mask)^[j] M0 := Function.iterate_fixed heq (K - j)
    rw [hsplit, hfixj, heq]
  -- each non-fixed step strictly increases the total sum
  have hgrow : ∀ j, 1 ≤ j → j ≤ K →
      ((step conn mask)^[j] M0).data.sum + 1 ≤
        ((step conn mask)^[j + 1] M0).data.sum := by
    intro j hj1 hjK
    obtain ⟨jw, jh, jl⟩ := iter_shape conn mask M0 hmask h1 h2 h3 j
    obtain ⟨jw2, jh2, jl2⟩ := iter_shape conn mask M0 hmask h1 h2 h3 (j + 1)
    have hlen : ((step conn mask)^[j] M0).data.length =
        ((step conn mask)^[j + 1] M0).data.length := by rw [jl, jl2]
    obtain ⟨j0, rfl⟩ : ∃ j0, j = j0 + 1 := ⟨j - 1, by omega⟩
    have hpt := iter_grow conn mask M0 hmask h1 h2 h3 j0
    have hne2 : ((step conn mask)^[j0 + 1] M0).data ≠
        ((step conn mask)^[j0 + 1 + 1] M0).data := by
      intro hdata
      apply hnofix (j0 + 1) hjK
      have hs := step_shape conn mask ((step conn mask)^[j0 + 1] M0)
      have hdata2 : (step conn mask ((step conn mask)^[j0 + 1] M0)).data =
          ((step conn mask)^[j0 + 1] M0).data := by
        rw [← Function.iterate_succ_apply' (step conn mask) (j0 + 1) M0]
        exact hdata.symm
      exact imgExt hs.1 hs.2.1 hs.2.2.1 hdata2
    have := sum_lt_of_pointwise_ne hlen hpt hne2
    omega
  -- hence the sum after K+1 steps exceeds the total mass of the mask
  have hchain : ∀ j, j ≤ K → j + ((step conn mask)^[1] M0).data.sum ≤
      ((step conn mask)^[1 + j] M0).data.sum := by
    intro j
    induction j with
    | zero => intro _; simp
    | succ n ih =>
        intro hn
        have hstep := hgrow (1 + n) (by omega) (by omega)
        have hih := ih (by omega)
        have heq : 1 + n + 1 = 1 + (n + 1) := by omega
        rw [heq] at hstep
        omega
  have hfinal := hchain K (le_refl K)
  -- but every iterate from step 1 on is bounded by the mask
  have hle : ((step conn mask)^[1 + K] M0).data.sum ≤ mask.data.sum := by
    obtain ⟨kw, kh, kl⟩ := iter_shape conn mask M0 hmask h1 h2 h3 (1 + K)
    refine sum_le_of_pointwise (by rw [kl, hmask]) fun i => ?_
    have : 1 + K = K + 1 := by omega
    rw [this]
    exact iter_le_mask conn mask M0 hmask h1 h2 h3 K i
  have hmass : mask.data.sum ≤ 255 * N := by
    have := sum_le_255_mul mask.data hbound
    rwa [hmask] at this
  omega

/-! ### The ramp image: reconstruction needs more than 255 iterations -/

theorem getD_rampM (k j : Nat) (hk : k ≤ 257) (hj : j < 258) :
    (rampM k).data.getD j 0 = if j ≤ k then 254 else 253 := by
  have h := getD_rep_append (k + 1) (257 - k) 254 253 j (by omega)
  show (List.replicate (k + 1) 254 ++ List.replicate (257 - k) 253).getD j 0 = _
  rw [h]
  by_cases hjk : j ≤ k
  · rw [if_pos (by omega : j < k + 1), if_pos hjk]
  · rw [if_neg (by omega : ¬j < k + 1), if_neg hjk]

theorem getD_rampI (j : Nat) (hj : j < 258) :
    rampI.data.getD j 0 = if j = 0 then 255 else 254 := by
  have h := getD_rep_append 1 257 255 254 j (by omega)
  show (List.replicate 1 255 ++ List.replicate 257 254).getD j 0 = _
  rw [h]
  by_cases hj0 : j = 0
  · rw [if_pos (by omega : j < 1), if_pos hj0]
  · rw [if_neg (by omega : ¬j < 1), if_neg hj0]

theorem nbrCoords_row_mid (i : Nat) (h1 : 1 ≤ i) (h2 : i < 257) :
    nbrCoords 4 258 1 i 0 = [(i + 1, 0), (i - 1, 0)] := by
  have hoff : nbrOffsets 4 = [(1, 0), (-1, 0), (0, 1), (0, -1)] := rfl
  unfold nbrCoords
  rw [hoff]
  simp only [List.filterMap_cons, List.filterMap_nil]
  split_ifs <;> try (exfalso; omega)
  have e1 : ((i : Int) + 1).toNat = i + 1 := by omega
  have e2 : ((i : Int) + -1).toNat = i - 1 := by omega
  have e3 : (((0 : Nat) : Int) + 0).toNat = 0 := by omega
  simp only [e1, e2, e3]

theorem nbrCoords_row_left : nbrCoords 4 258 1 0 0 = [(1, 0)] := by decide

theorem nbrCoords_row_right : nbrCoords 4 258 1 257 0 = [(256, 0)] := by decide

theorem getPix_row (m : Img) (x : Nat) :
    getPix m x 0 = m.data.getD x 0 := by
  simp [getPix]

theorem dilateAt_rampM (k i : Nat) (hk : k ≤ 257) (hi : i < 258) :
    dilateAt 4 (rampM k) i 0 =
      if i ≤ k ∨ (1 ≤ i ∧ i ≤ k + 1) then 254 else 253 := by
  unfold dilateAt
  have hwid : (rampM k).width = 258 := rfl
  have hht : (rampM k).height = 1 := rfl
  rw [hwid, hht]
  rcases Nat.eq_zero_or_pos i with h0 | h1
  · subst h0
    rw [nbrCoords_row_left]
    simp only [List.map_cons, List.map_nil, List.foldr_cons, List.foldr_nil,
      getPix_row]
    rw [getD_rampM k 1 hk (by omega), getD_rampM k 0 hk (by omega)]
    split_ifs <;> omega
  · by_cases h2 : i < 257
    · rw [nbrCoords_row_mid i h1 h2]
      simp only [List.map_cons, List.map_nil, List.foldr_cons, List.foldr_nil,
        getPix_row]
      rw [getD_rampM k (i + 1) hk (by omega), getD_rampM k (i - 1) hk (by omega),
        getD_rampM k i hk hi]
      split_ifs <;> omega
    · have h257 : i = 257 := by omega
      subst h257
      rw [nbrCoords_row_right]
      simp only [List.map_cons, List.map_nil, List.foldr_cons, List.foldr_nil,
        getPix_row]
      rw [getD_rampM k 256 hk (by omega), getD_rampM k 257 hk (by omega)]
      split_ifs <;> omega

theorem rampI_data_length : rampI.data.length = 258 := by
  show (List.replicate 1 255 ++ List.replicate 257 254).length = 258
  rw [List.length_append, List.length_replicate, List.length_replicate]

theorem rampM_data_length (k : Nat) (hk : k ≤ 257) :
    (rampM k).data.length = 258 := by
  show (List.replicate (k + 1) 254 ++ List.replicate (257 - k) 253).length = 258
  rw [List.length_append, List.length_replicate, List.length_replicate]
  omega

theorem step_rampM (k : Nat) (hk : k ≤ 256) :
    step 4 rampI (rampM k) = rampM (k + 1) := by
  refine imgExt rfl rfl rfl ?_
  have hmaskI : rampI.data.length = rampI.width * rampI.height := by
    rw [rampI_data_length]; rfl
  have hlenS : (step 4 rampI (rampM k)).data.length = 258 := by
    rw [(step_shape 4 rampI (rampM k)).2.2.2]
    have h1 : (rampM k).width * (rampM k).height = 258 := rfl
    rw [h1, rampI_data_length]
    exact Nat.min_self 258
  refine list_ext_getD (by rw [hlenS, rampM_data_length (k + 1) (by omega)])
    fun i => ?_
  by_cases hi : i < 258
  · have h258 : rampI.width * rampI.height = 258 := rfl
    have hstep := getD_step 4 rampI (rampM k) rfl rfl hmaskI i (by omega)
    rw [hstep]
    have hwid : (rampM k).width = 258 := rfl
    rw [hwid, Nat.mod_eq_of_lt hi, Nat.div_eq_of_lt hi]
    rw [dilateAt_rampM k i (by omega) hi, getD_rampI i hi,
      getD_rampM (k + 1) i (by omega) hi]
    split_ifs <;> omega
  · rw [List.getD_eq_default _ 0 (by rw [hlenS]; omega),
      List.getD_eq_default _ 0 (by rw [rampM_data_length (k + 1) (by omega)]; omega)]

set_option maxRecDepth 4000 in
theorem marker_rampI : marker rampI 1 = rampM 0 := by decide

theorem iter_rampM (k : Nat) (hk : k ≤ 257) :
    (step 4 rampI)^[k] (marker rampI 1) = rampM k := by
  induction k with
  | zero => exact marker_rampI
  | succ n ih =>
      rw [Function.iterate_succ_apply', ih (by omega), step_rampM n (by omega)]

/-! ### H-dome, marker and invert helper lemmas -/

theorem pixHDome_eq (m : Img) (h : Int) (conn : Nat) (hI : Img8 m) :
    pixHDome m h conn =
      some (imgSub m (reconstructAux conn m (rfuel m) (marker m h))) := by
  unfold pixHDome
  rw [if_pos ⟨hI.1, hI.2.1, hI.2.2.1⟩]

theorem marker_data_length_img8 (m : Img) (hI : Img8 m) (h : Int) :
    (marker m h).data.length = m.width * m.height := by
  rw [marker_length, hI.2.2.2.1]

theorem reconstruct_marker_fixed (conn : Nat) (m : Img) (hI : Img8 m) (h : Int) :
    step conn m (reconstructAux conn m (rfuel m) (marker m h)) =
      reconstructAux conn m (rfuel m) (marker m h) := by
  rw [reconstructAux_eq_iterate]
  exact fixed_reached conn m (marker m h) hI rfl rfl
    (marker_data_length_img8 m hI h)

theorem reconstructAux_fixed (conn : Nat) (mask M : Img) (n : Nat)
    (hfix : step conn mask M = M) : reconstructAux conn mask n M = M := by
  rw [reconstructAux_eq_iterate]
  exact Function.iterate_fixed hfix n

theorem imgSub_data_length (a b : Img) :
    (imgSub a b).data.length = min a.data.length b.data.length := by
  simp [imgSub]

theorem getD_imgSub (a b : Img) (i : Nat) (hia : i < a.data.length)
    (hib : i < b.data.length) :
    (imgSub a b).data.getD i 0 = a.data.getD i 0 - b.data.getD i 0 := by
  unfold imgSub
  rw [List.getD_eq_getElem _ 0 (by simp [List.length_zipWith]; omega),
    List.getElem_zipWith, List.getD_eq_getElem a.data 0 hia,
    List.getD_eq_getElem b.data 0 hib]

theorem markerSample_anti (h1 h2 : Int) (hle : h1 ≤ h2) (s : Nat) :
    markerSample h2 s ≤ markerSample h1 s := by
  unfold markerSample
  omega

theorem marker_anti (m : Img) (h1 h2 : Int) (hle : h1 ≤ h2) (i : Nat) :
    (marker m h2).data.getD i 0 ≤ (marker m h1).data.getD i 0 := by
  by_cases hi : i < m.data.length
  · rw [getD_marker m h2 i hi, getD_marker m h1 i hi]
    exact markerSample_anti h1 h2 hle _
  · rw [List.getD_eq_default _ 0 (by rw [marker_length]; omega)]
    exact Nat.zero_le _

theorem markerSample_zero (s : Nat) (hs : s ≤ 255) : markerSample 0 s = s := by
  unfold markerSample
  omega

theorem marker_zero (m : Img) (hm : ∀ s ∈ m.data, s ≤ 255) : marker m 0 = m := by
  refine imgExt rfl rfl rfl ?_
  show m.data.map (markerSample 0) = m.data
  calc m.data.map (markerSample 0)
      = m.data.map id :=
        List.map_congr_left fun s hs => markerSample_zero s (hm s hs)
    _ = m.data := List.map_id m.data

theorem step_self (conn : Nat) (m : Img)
    (hlen : m.data.length = m.width * m.height) : step conn m m = m := by
  refine imgExt rfl rfl rfl ?_
  have hslen : (step conn m m).data.length = m.data.length := by
    rw [(step_shape conn m m).2.2.2, ← hlen, Nat.min_self]
  refine list_ext_getD hslen fun i => ?_
  by_cases hi : i < m.width * m.height
  · rw [getD_step conn m m rfl rfl hlen i hi]
    have hle : m.data.getD i 0 ≤ dilateAt conn m (i % m.width) (i / m.width) := by
      rw [← getPix_getD m i]
      exact self_le_dilateAt conn m _ _
    exact min_eq_right hle
  · have h1 : (step conn m m).data.length ≤ i := by rw [hslen]; omega
    have h2 : m.data.length ≤ i := by omega
    rw [List.getD_eq_default _ 0 h1, List.getD_eq_default _ 0 h2]

theorem getD_pixInvert (m : Img) (i : Nat) (hi : i < m.data.length) :
    (pixInvert m).data.getD i 0 = 255 - m.data.getD i 0 := by
  unfold pixInvert
  rw [List.getD_eq_getElem _ 0 (by simpa using hi), List.getElem_map,
    List.getD_eq_getElem m.data 0 hi]

theorem invert_involutive (m : Img) (hm : ∀ s ∈ m.data, s ≤ 255) :
    pixInvert (pixInvert m) = m := by
  refine imgExt rfl rfl rfl ?_
  show (m.data.map fun s => 255 - s).map (fun s => 255 - s) = m.data
  rw [List.map_map]
  calc m.data.map ((fun s => 255 - s) ∘ fun s => 255 - s)
      = m.data.map id := List.map_congr_left fun s hs => by
        have := hm s hs
        simp only [Function.comp_apply, id_eq]
        omega
    _ = m.data := List.map_id m.data

/-! ### Driver anatomy -/

theorem runMain_anatomy (args : List String) (w : World) :
    (args.length ≠ 4 ∧
        runMain args w = ⟨1, none, some "Syntax: hdomes filein fileout h"⟩) ∨
      (args.length = 4 ∧ w.readResult = none ∧
        runMain args w = ⟨1, none, some "pixRead failed for input file"⟩) ∨
      (args.length = 4 ∧ (∃ I, w.readResult = some I ∧ I.depth ≠ 8) ∧
        runMain args w = ⟨1, none, some "Input image is not 8 bpp grayscale"⟩) ∨
      (args.length = 4 ∧ (∃ I, w.readResult = some I ∧ I.depth = 8 ∧
          pixHDome (pixInvert I) (atoi (args.getD 3 "")) 4 = none) ∧
        runMain args w = ⟨1, none, some "pixHDome failed"⟩) ∨
      (args.length = 4 ∧ (∃ I d, w.readResult = some I ∧ I.depth = 8 ∧
          pixHDome (pixInvert I) (atoi (args.getD 3 "")) 4 = some d) ∧
        w.writeOk = false ∧
        runMain args w = ⟨1, none, some "pixWrite failed for output file"⟩) ∨
      (args.length = 4 ∧ w.writeOk = true ∧
        ∃ I d, w.readResult = some I ∧ I.depth = 8 ∧
          pixHDome (pixInvert I) (atoi (args.getD 3 "")) 4 = some d ∧
          runMain args w = ⟨0, some d, none⟩) := by
  by_cases hlen : args.length = 4
  · cases hr : w.readResult with
    | none =>
        refine Or.inr (Or.inl ⟨hlen, rfl, ?_⟩)
        simp [runMain, runPipeline, hlen, hr]
    | some I =>
        by_cases hd : I.depth = 8
        · cases hh : pixHDome (pixInvert I) (atoi (args.getD 3 "")) 4 with
          | none =>
              refine Or.inr (Or.inr (Or.inr (Or.inl ⟨hlen, ⟨I, rfl, hd, hh⟩, ?_⟩)))
              have hh2 := hh
              simp [hlen] at hh2
              simp [runMain, runPipeline, hlen, hr, hd, hh2]
          | some d =>
              cases hwk : w.writeOk with
              | false =>
                  refine Or.inr (Or.inr (Or.inr (Or.inr (Or.inl
                    ⟨hlen, ⟨I, d, rfl, hd, hh⟩, rfl, ?_⟩))))
                  have hh2 := hh
                  simp [hlen] at hh2
                  simp [runMain, runPipeline, hlen, hr, hd, hh2, hwk]
              | true =>
                  refine Or.inr (Or.inr (Or.inr (Or.inr (Or.inr
                    ⟨hlen, rfl, I, d, rfl, hd, hh, ?_⟩))))
                  have hh2 := hh
                  simp [hlen] at hh2
                  simp [runMain, runPipeline, hlen, hr, hd, hh2, hwk]
        · refine Or.inr (Or.inr (Or.inl ⟨hlen, ⟨I, rfl, hd⟩, ?_⟩))
          simp [runMain, runPipeline, hlen, hr, hd]
  · refine Or.inl ⟨hlen, ?_⟩
    unfold runMain
    rw [if_neg hlen]

/-! ### Claims -/

/-- Claim C1: on every successful run (exit code 0), the written output is
exactly encode(h-dome(invert(decode input), parsed h, 4-connectivity)):
there is a decoded image I of depth 8 whose inversion, fed to pixHDome
with the atoi-parsed third argument and connectivity 4, yields the image
the driver wrote, and no diagnostic is emitted. -/
theorem claim_C1 (args : List String) (w : World)
    (h0 : (runMain args w).exitCode = 0) :
    ∃ I d, w.readResult = some I ∧ I.depth = 8 ∧
      pixHDome (pixInvert I) (atoi (args.getD 3 "")) 4 = some d ∧
      (runMain args w).written = some d ∧ (runMain args w).errMsg = none := by
  rcases runMain_anatomy args w with ⟨_, he⟩ | ⟨_, _, he⟩ | ⟨_, _, he⟩ |
    ⟨_, _, he⟩ | ⟨_, _, _, he⟩ | ⟨_, _, I, d, hr, hd, hh, he⟩
  · rw [he] at h0; simp at h0
  · rw [he] at h0; simp at h0
  · rw [he] at h0; simp at h0
  · rw [he] at h0; simp at h0
  · rw [he] at h0; simp at h0
  · exact ⟨I, d, hr, hd, hh, by rw [he], by rw [he]⟩

/-- Witness for C1 at a concrete successful run. -/
theorem claim_C1_witness :
    ∃ I d, okWorld.readResult = some I ∧ I.depth = 8 ∧
      pixHDome (pixInvert I) (atoi (["hdomes", "in", "out", "3"].getD 3 "")) 4 =
        some d ∧
      (runMain ["hdomes", "in", "out", "3"] okWorld).written = some d ∧
      (runMain ["hdomes", "in", "out", "3"] okWorld).errMsg = none :=
  claim_C1 ["hdomes", "in", "out", "3"] okWorld (by decide)

/-- Claim C2: for every 8-bit image I and every height h, the h-dome
operation returns I − M where M is the fixed point the reference
iteration Mₖ₊₁ = min(dilate(Mₖ), I) converges to from the clamped seed
M₀ = I − h: M is some iterate of the step, M is a fixed point of the
step, and any iterate that is a fixed point equals M. -/
theorem claim_C2 (I : Img) (hI : Img8 I) (h : Int) :
    ∃ M, pixHDome I h 4 = some (imgSub I M) ∧
      (∃ k, M = (step 4 I)^[k] (marker I h)) ∧
      step 4 I M = M ∧
      ∀ j, step 4 I ((step 4 I)^[j] (marker I h)) =
          (step 4 I)^[j] (marker I h) →
        (step 4 I)^[j] (marker I h) = M := by
  have hfixK : step 4 I ((step 4 I)^[rfuel I] (marker I h)) =
      (step 4 I)^[rfuel I] (marker I h) :=
    fixed_reached 4 I (marker I h) hI rfl rfl (marker_data_length_img8 I hI h)
  refine ⟨reconstructAux 4 I (rfuel I) (marker I h), pixHDome_eq I h 4 hI,
    ⟨rfuel I, reconstructAux_eq_iterate 4 I (rfuel I) (marker I h)⟩,
    reconstruct_marker_fixed 4 I hI h, ?_⟩
  intro j hj
  rw [reconstructAux_eq_iterate]
  rcases le_total j (rfuel I) with hle | hle
  · have hsplit : (step 4 I)^[rfuel I] (marker I h) =
        (step 4 I)^[rfuel I - j] ((step 4 I)^[j] (marker I h)) := by
      rw [← Function.iterate_add_apply]
      congr 1
      omega
    rw [hsplit, Function.iterate_fixed hj]
  · have hsplit : (step 4 I)^[j] (marker I h) =
        (step 4 I)^[j - rfuel I] ((step 4 I)^[rfuel I] (marker I h)) := by
      rw [← Function.iterate_add_apply]
      congr 1
      omega
    rw [hsplit, Function.iterate_fixed hfixK]

/-- Witness for C2 at a concrete 8-bit image and height. -/
theorem claim_C2_witness :
    ∃ M, pixHDome egImg 2 4 = some (imgSub egImg M) ∧
      (∃ k, M = (step 4 egImg)^[k] (marker egImg 2)) ∧
      step 4 egImg M = M ∧
      ∀ j, step 4 egImg ((step 4 egImg)^[j] (marker egImg 2)) =
          (step 4 egImg)^[j] (marker egImg 2) →
        (step 4 egImg)^[j] (marker egImg 2) = M :=
  claim_C2 egImg (by decide) 2

/-- Claim C3: the exit code is always 0 or 1, and it is 0 exactly when
every pipeline stage succeeds: well-formed argument count, successful
decode, depth 8, successful h-dome, successful write (invert never fails
on valid input in the spec's model). -/
theorem claim_C3 (args : List String) (w : World) :
    ((runMain args w).exitCode = 0 ∨ (runMain args w).exitCode = 1) ∧
      ((runMain args w).exitCode = 0 ↔
        args.length = 4 ∧ ∃ I, w.readResult = some I ∧ I.depth = 8 ∧
          (pixHDome (pixInvert I) (atoi (args.getD 3 "")) 4).isSome = true ∧
          w.writeOk = true) := by
  rcases runMain_anatomy args w with ⟨hlen, he⟩ | ⟨hlen, hr, he⟩ |
    ⟨hlen, ⟨I, hr, hd⟩, he⟩ | ⟨hlen, ⟨I, hr, hd, hh⟩, he⟩ |
    ⟨hlen, ⟨I, d, hr, hd, hh⟩, hwk, he⟩ | ⟨hlen, hwk, I, d, hr, hd, hh, he⟩
  · rw [he]
    refine ⟨Or.inr rfl, ?_, ?_⟩
    · intro h0; simp at h0
    · rintro ⟨h4, _⟩; exact absurd h4 hlen
  · rw [he]
    refine ⟨Or.inr rfl, ?_, ?_⟩
    · intro h0; simp at h0
    · rintro ⟨_, J, hrJ, _⟩
      rw [hr] at hrJ
      exact Option.noConfusion hrJ
  · rw [he]
    refine ⟨Or.inr rfl, ?_, ?_⟩
    · intro h0; simp at h0
    · rintro ⟨_, J, hrJ, hdJ, _⟩
      rw [hr] at hrJ
      injection hrJ with hIJ
      subst hIJ
      exact absurd hdJ hd
  · rw [he]
    refine ⟨Or.inr rfl, ?_, ?_⟩
    · intro h0; simp at h0
    · rintro ⟨_, J, hrJ, hdJ, hsome, _⟩
      rw [hr] at hrJ
      injection hrJ with hIJ
      subst hIJ
      rw [hh] at hsome
      simp at hsome
  · rw [he]
    refine ⟨Or.inr rfl, ?_, ?_⟩
    · intro h0; simp at h0
    · rintro ⟨_, _, _, _, _, hwkT⟩
      rw [hwk] at hwkT
      exact Bool.noConfusion hwkT
  · rw [he]
    refine ⟨Or.inl rfl, ?_, ?_⟩
    · intro _
      exact ⟨hlen, I, hr, hd, by rw [hh]; rfl, hwk⟩
    · intro _
      rfl

/-- Counterexample to claim C4 as stated: on the 1×2 image [10, 5] with
heights 1 < 7, the h = 7 result [7, 2] has a non-zero sample at position
1 while the h = 1 result [1, 0] is zero there, so the non-zero support
for the larger height is not a subset of the one for the smaller. -/
theorem claim_C4_counterexample :
    ¬ (∀ (I : Img), Img8 I → ∀ (h1 h2 : Int), h1 < h2 →
        ∀ (D1 D2 : Img), pixHDome I h1 4 = some D1 →
          pixHDome I h2 4 = some D2 →
          ∀ i, D2.data.getD i 0 ≠ 0 → D1.data.getD i 0 ≠ 0) := by
  intro hclaim
  have hD1 : pixHDome cImg 1 4 = some ⟨2, 1, 8, [1, 0]⟩ := by decide
  have hD2 : pixHDome cImg 7 4 = some ⟨2, 1, 8, [7, 2]⟩ := by decide
  have h := hclaim cImg (by decide) 1 7 (by decide) _ _ hD1 hD2 1 (by decide)
  exact h (by decide)

/-- Claim C4 as amended: the inclusion runs the other way — for heights
h₁ ≤ h₂, every position that is non-zero in the h₁ result is non-zero in
the h₂ result (the h-dome output is pointwise monotone in h). -/
theorem claim_C4 (I : Img) (hI : Img8 I) (h1 h2 : Int) (hle : h1 ≤ h2)
    (D1 D2 : Img) (hD1 : pixHDome I h1 4 = some D1)
    (hD2 : pixHDome I h2 4 = some D2) (i : Nat)
    (hnz : D1.data.getD i 0 ≠ 0) : D2.data.getD i 0 ≠ 0 := by
  rw [pixHDome_eq I h1 4 hI] at hD1
  rw [pixHDome_eq I h2 4 hI] at hD2
  set M1 := reconstructAux 4 I (rfuel I) (marker I h1) with hM1def
  set M2 := reconstructAux 4 I (rfuel I) (marker I h2) with hM2def
  have hD1e : D1 = imgSub I M1 := (Option.some.inj hD1).symm
  have hD2e : D2 = imgSub I M2 := (Option.some.inj hD2).symm
  subst hD1e hD2e
  have hIlen : I.data.length = I.width * I.height := hI.2.2.2.1
  have hM1len : M1.data.length = I.width * I.height := by
    rw [hM1def, reconstructAux_eq_iterate]
    exact (iter_shape 4 I (marker I h1) hIlen rfl rfl
      (marker_data_length_img8 I hI h1) (rfuel I)).2.2
  have hM2len : M2.data.length = I.width * I.height := by
    rw [hM2def, reconstructAux_eq_iterate]
    exact (iter_shape 4 I (marker I h2) hIlen rfl rfl
      (marker_data_length_img8 I hI h2) (rfuel I)).2.2
  have hi : i < I.width * I.height := by
    by_contra hge
    apply hnz
    apply List.getD_eq_default
    rw [imgSub_data_length, hIlen, hM1len, Nat.min_self]
    omega
  have hmono : M2.data.getD i 0 ≤ M1.data.getD i 0 := by
    rw [hM1def, hM2def, reconstructAux_eq_iterate, reconstructAux_eq_iterate]
    exact iter_mono_start 4 I (marker I h2) (marker I h1) hIlen rfl rfl
      (marker_data_length_img8 I hI h2) rfl rfl
      (marker_data_length_img8 I hI h1) (marker_anti I h1 h2 hle) (rfuel I) i
  have e1 : (imgSub I M1).data.getD i 0 = I.data.getD i 0 - M1.data.getD i 0 :=
    getD_imgSub I M1 i (by omega) (by omega)
  have e2 : (imgSub I M2).data.getD i 0 = I.data.getD i 0 - M2.data.getD i 0 :=
    getD_imgSub I M2 i (by omega) (by omega)
  rw [e1] at hnz
  rw [e2]
  omega

/-- Witness for the amended C4 at a concrete image, heights 1 ≤ 7 and
position 0. -/
theorem claim_C4_witness :
    (⟨2, 1, 8, [7, 2]⟩ : Img).data.getD 0 0 ≠ 0 :=
  claim_C4 cImg (by decide) 1 7 (by decide) ⟨2, 1, 8, [1, 0]⟩
    ⟨2, 1, 8, [7, 2]⟩ (by decide) (by decide) 0 (by decide)

set_option maxRecDepth 4000 in
/-- Counterexample to claim C5 as stated: the 1×258 ramp image is a valid
8-bit image on which no iterate up to the 255th is a fixed point of the
reconstruction step (with h = 1) — the 254-plateau front advances one
pixel per iteration and needs 257 iterations to cross the image, so the
bound of 255 iterations regardless of dimensions is false. -/
theorem claim_C5_counterexample :
    Img8 rampI ∧
      ¬ (∃ k ≤ 255, step 4 rampI ((step 4 rampI)^[k] (marker rampI 1)) =
          (step 4 rampI)^[k] (marker rampI 1)) := by
  constructor
  · decide
  · rintro ⟨k, hk, hfix⟩
    rw [iter_rampM k (by omega), step_rampM k (by omega)] at hfix
    have h1 : (rampM (k + 1)).data.getD (k + 1) 0 = 254 := by
      rw [getD_rampM (k + 1) (k + 1) (by omega) (by omega), if_pos (le_refl _)]
    have h2 : (rampM k).data.getD (k + 1) 0 = 253 := by
      rw [getD_rampM k (k + 1) (by omega) (by omega), if_neg (by omega)]
    rw [hfix] at h1
    omega

/-- Claim C5 as amended: for every 8-bit image the reconstruction
iteration reaches a fixed point within 255 × (width × height) + 1
iterations — bounded by the sample range times the number of pixels, not
by the sample range alone. -/
theorem claim_C5 (I : Img) (hI : Img8 I) (h : Int) :
    ∃ k ≤ 255 * (I.width * I.height) + 1,
      step 4 I ((step 4 I)^[k] (marker I h)) = (step 4 I)^[k] (marker I h) :=
  ⟨rfuel I, le_refl _,
    fixed_reached 4 I (marker I h) hI rfl rfl (marker_data_length_img8 I hI h)⟩

/-- Witness for the amended C5 at a concrete image and height. -/
theorem claim_C5_witness :
    ∃ k ≤ 255 * (egImg.width * egImg.height) + 1,
      step 4 egImg ((step 4 egImg)^[k] (marker egImg 0)) =
        (step 4 egImg)^[k] (marker egImg 0) :=
  claim_C5 egImg (by decide) 0

/-- Counterexample to claim C6 as stated: with four arguments whose third
is the unparsable string "abc", the driver does not report ArgumentError
and exit 1 — atoi silently yields 0 and the run succeeds with exit
code 0. -/
theorem claim_C6_counterexample :
    ¬ (∀ (args : List String) (w : World),
        (args.length ≠ 4 ∨ isIntString (args.getD 3 "") = false) →
          (runMain args w).exitCode = 1 ∧ (runMain args w).written = none ∧
            (runMain args w).errMsg = some "Syntax: hdomes filein fileout h") := by
  intro hclaim
  have h := hclaim ["hdomes", "in", "out", "abc"] okWorld (Or.inr (by decide))
  have h0 : (runMain ["hdomes", "in", "out", "abc"] okWorld).exitCode = 0 := by
    decide
  have h1 := h.1
  rw [h0] at h1
  exact absurd h1 (by decide)

/-- Claim C6 as amended: only the wrong argument count triggers the
ArgumentError path — the driver then reports the syntax diagnostic and
exits with code 1 without producing any output file (an unparsable third
argument is not detected, per C10). -/
theorem claim_C6 (args : List String) (w : World) (hlen : args.length ≠ 4) :
    runMain args w = ⟨1, none, some "Syntax: hdomes filein fileout h"⟩ := by
  unfold runMain
  rw [if_neg hlen]

/-- Witness for the amended C6 at a three-argument invocation. -/
theorem claim_C6_witness :
    runMain ["hdomes", "in", "out"] okWorld =
      ⟨1, none, some "Syntax: hdomes filein fileout h"⟩ :=
  claim_C6 ["hdomes", "in", "out"] okWorld (by decide)

/-- Claim C7: invert replaces every sample s by 255 − s and is involutive
on valid 8-bit buffers. -/
theorem claim_C7 (b : Img) (hb : Img8 b) :
    pixInvert (pixInvert b) = b ∧
      ∀ i, i < b.data.length →
        (pixInvert b).data.getD i 0 = 255 - b.data.getD i 0 :=
  ⟨invert_involutive b hb.2.2.2.2, fun i hi => getD_pixInvert b i hi⟩

/-- Witness for C7 at a concrete buffer. -/
theorem claim_C7_witness :
    pixInvert (pixInvert egImg) = egImg ∧
      ∀ i, i < egImg.data.length →
        (pixInvert egImg).data.getD i 0 = 255 - egImg.data.getD i 0 :=
  claim_C7 egImg (by decide)

/-- Claim C8: the h-dome operation with h = 0 returns an all-zero buffer
with the same width and height as the input. -/
theorem claim_C8 (I : Img) (hI : Img8 I) :
    ∃ Z, pixHDome I 0 4 = some Z ∧ Z.width = I.width ∧ Z.height = I.height ∧
      Z.data.length = I.width * I.height ∧ ∀ i, Z.data.getD i 0 = 0 := by
  have hm0 : marker I 0 = I := marker_zero I hI.2.2.2.2
  have hfix : step 4 I I = I := step_self 4 I hI.2.2.2.1
  have haux : reconstructAux 4 I (rfuel I) (marker I 0) = I := by
    rw [hm0]
    exact reconstructAux_fixed 4 I I (rfuel I) hfix
  refine ⟨imgSub I I, ?_, rfl, rfl, ?_, ?_⟩
  · rw [pixHDome_eq I 0 4 hI, haux]
  · show (List.zipWith (fun x y => x - y) I.data I.data).length = _
    rw [zipWith_sub_self, List.length_replicate, hI.2.2.2.1]
  · intro i
    show (List.zipWith (fun x y => x - y) I.data I.data).getD i 0 = 0
    rw [zipWith_sub_self]
    exact getD_replicate_zero _ i

/-- Witness for C8 at a concrete image. -/
theorem claim_C8_witness :
    ∃ Z, pixHDome egImg 0 4 = some Z ∧ Z.width = egImg.width ∧
      Z.height = egImg.height ∧ Z.data.length = egImg.width * egImg.height ∧
      ∀ i, Z.data.getD i 0 = 0 :=
  claim_C8 egImg (by decide)

/-- Claim C9: failing runs write nothing; a wrong-depth input produces
the depth diagnostic and exit 1 with no output; and whenever an output is
written, decode, depth validation, invert and h-dome all succeeded and
produced exactly that output. -/
theorem claim_C9 (args : List String) (w : World) :
    ((runMain args w).exitCode ≠ 0 → (runMain args w).written = none) ∧
      (∀ I, args.length = 4 → w.readResult = some I → I.depth ≠ 8 →
        runMain args w = ⟨1, none, some "Input image is not 8 bpp grayscale"⟩) ∧
      (∀ d, (runMain args w).written = some d →
        ∃ I, w.readResult = some I ∧ I.depth = 8 ∧
          pixHDome (pixInvert I) (atoi (args.getD 3 "")) 4 = some d ∧
          w.writeOk = true) := by
  rcases runMain_anatomy args w with ⟨hlen, he⟩ | ⟨hlen, hr, he⟩ |
    ⟨hlen, ⟨I, hr, hd⟩, he⟩ | ⟨hlen, ⟨I, hr, hd, hh⟩, he⟩ |
    ⟨hlen, ⟨I, d, hr, hd, hh⟩, hwk, he⟩ | ⟨hlen, hwk, I, d, hr, hd, hh, he⟩
  · refine ⟨fun _ => by rw [he], fun J h4 _ _ => absurd h4 hlen, fun e hw => ?_⟩
    rw [he] at hw
    simp at hw
  · refine ⟨fun _ => by rw [he], fun J _ hrJ _ => ?_, fun e hw => ?_⟩
    · rw [hr] at hrJ
      exact Option.noConfusion hrJ
    · rw [he] at hw
      simp at hw
  · refine ⟨fun _ => by rw [he], fun J _ hrJ _ => he, fun e hw => ?_⟩
    rw [he] at hw
    simp at hw
  · refine ⟨fun _ => by rw [he], fun J _ hrJ hdJ => ?_, fun e hw => ?_⟩
    · rw [hr] at hrJ
      injection hrJ with hIJ
      subst hIJ
      exact absurd hd hdJ
    · rw [he] at hw
      simp at hw
  · refine ⟨fun _ => by rw [he], fun J _ hrJ hdJ => ?_, fun e hw => ?_⟩
    · rw [hr] at hrJ
      injection hrJ with hIJ
      subst hIJ
      exact absurd hd hdJ
    · rw [he] at hw
      simp at hw
  · refine ⟨fun hne => ?_, fun J _ hrJ hdJ => ?_, fun e hw => ?_⟩
    · rw [he] at hne
      simp at hne
    · rw [hr] at hrJ
      injection hrJ with hIJ
      subst hIJ
      exact absurd hd hdJ
    · rw [he] at hw
      simp at hw
      exact ⟨I, hr, hd, hw ▸ hh, hwk⟩

/-- Witness for C9: a wrong-depth decode produces the depth diagnostic
with no output, and a successful run's output traces back through the
pipeline. -/
theorem claim_C9_witness :
    runMain ["hdomes", "in", "out", "2"] ⟨some badDepthImg, true⟩ =
        ⟨1, none, some "Input image is not 8 bpp grayscale"⟩ ∧
      ∃ I, okWorld.readResult = some I ∧ I.depth = 8 ∧
        pixHDome (pixInvert I)
          (atoi (["hdomes", "in", "out", "3"].getD 3 "")) 4 =
          some ⟨1, 1, 8, [3]⟩ ∧
        okWorld.writeOk = true := by
  constructor
  · exact (claim_C9 ["hdomes", "in", "out", "2"] ⟨some badDepthImg, true⟩).2.1
      badDepthImg (by decide) rfl (by decide)
  · exact (claim_C9 ["hdomes", "in", "out", "3"] okWorld).2.2
      ⟨1, 1, 8, [3]⟩ (by decide)

/-- Claim C10: the driver validates nothing about the height argument —
with four arguments it always runs the pipeline on atoi of the third
argument, atoi maps a non-numeric string to 0 and parses a negative
decimal unchanged, and both such runs complete without any driver
error. -/
theorem claim_C10 :
    (∀ (p f o s : String) (w : World),
        runMain [p, f, o, s] w = runPipeline (atoi s) w) ∧
      atoi "abc" = 0 ∧ atoi "-17" = -17 ∧
      runMain ["hdomes", "in", "out", "abc"] okWorld =
        ⟨0, some ⟨1, 1, 8, [0]⟩, none⟩ ∧
      runMain ["hdomes", "in", "out", "-17"] okWorld =
        ⟨0, some ⟨1, 1, 8, [0]⟩, none⟩ := by
  refine ⟨?_, by decide, by decide, by decide, by decide⟩
  intro p f o s w
  rfl

end Hdomes
